import Mathlib

/-!
Verification of the moondream-station manifest / version-reconciliation core.

The Python sources embedded here are src/app/hypervisor/misc.py
(parse_version) and src/app/hypervisor/manifest.py (the Manifest class:
get_model, latest_model, get_inference_client, latest_inference_client,
_load_local, _download, update).  Python dicts are modelled as
insertion-ordered association lists, machine integers as Int/Nat, and
fallible code returns Except.  The helper parse_revision and the
UpdateOrchestrator state machine are not present under src/ and are
modelled from the design document, as marked on their definitions.
-/

namespace MoondreamStation

/-- Errors a Python call can raise.  valueError stands for ValueError
(what int() and max() raise; the design names the version-parse case
VersionParseError) and attributeError for AttributeError. -/
inductive PyErr where
  | valueError
  | attributeError
deriving DecidableEq, Repr

instance {ε α : Type} [DecidableEq ε] [DecidableEq α] : DecidableEq (Except ε α) := fun x y =>
  match x, y with
  | .ok a, .ok b =>
    if h : a = b then .isTrue (by rw [h]) else .isFalse (fun hc => h (Except.ok.inj hc))
  | .ok _, .error _ => .isFalse (fun hc => Except.noConfusion hc)
  | .error _, .ok _ => .isFalse (fun hc => Except.noConfusion hc)
  | .error e, .error f =>
    if h : e = f then .isTrue (by rw [h]) else .isFalse (fun hc => h (Except.error.inj hc))

/-- Comparison of two integers, as Python uses for tuple elements. -/
def intCompare (a b : Int) : Ordering :=
  if a < b then .lt else if b < a then .gt else .eq

/-- Lexicographic comparison of integer lists: the order Python uses on
tuples of ints (a strict prefix is smaller). -/
def listCompare : List Int → List Int → Ordering
  | [], [] => .eq
  | [], _ :: _ => .lt
  | _ :: _, [] => .gt
  | a :: as, b :: bs =>
    match intCompare a b with
    | .eq => listCompare as bs
    | .lt => .lt
    | .gt => .gt

/-- Tail of the digit body of a Python integer literal: digits with single
interior underscores (int accepts "1_0" but not "1__0" or "1_"). -/
def digitsTail : List Char → Bool
  | [] => true
  | '_' :: rest =>
    match rest with
    | [] => false
    | c :: rest => c.isDigit && digitsTail rest
  | c :: rest => c.isDigit && digitsTail rest

/-- Digit body of a Python integer literal: non-empty, starts with a digit. -/
def intBody : List Char → Bool
  | [] => false
  | c :: rest => c.isDigit && digitsTail rest

/-- Numeric value of a digit body (underscores skipped). -/
def digitsVal (l : List Char) : Nat :=
  (l.filter (fun c => c ≠ '_')).foldl (fun n c => 10 * n + (c.toNat - 48)) 0

/-- Strip ASCII whitespace from both ends, as Python int() does. -/
def stripWs (s : List Char) : List Char :=
  ((s.dropWhile Char.isWhitespace).reverse.dropWhile Char.isWhitespace).reverse

/-- Python int(str): optional surrounding whitespace, optional sign, then a
digit body; raises ValueError otherwise. -/
def pyIntL (l : List Char) : Except PyErr Int :=
  match stripWs l with
  | '+' :: rest => if intBody rest then .ok (digitsVal rest) else .error .valueError
  | '-' :: rest => if intBody rest then .ok (-(digitsVal rest : Int)) else .error .valueError
  | t => if intBody t then .ok (digitsVal t) else .error .valueError

/-- Python str.split("."): split at every dot, keeping empty pieces (the
empty string yields one empty piece). -/
def splitDots : List Char → List (List Char)
  | [] => [[]]
  | '.' :: rest => [] :: splitDots rest
  | c :: rest =>
    match splitDots rest with
    | [] => [[c]]
    | h :: t => (c :: h) :: t

/-- Strip a single leading v or V when the string is non-empty
(misc.py parse_version, lines 12-13). -/
def strip_v (s : String) : String :=
  match s.toList with
  | [] => s
  | c :: rest => if c = 'v' || c = 'V' then String.mk rest else s

/-- misc.py parse_version: strip any leading v, split on ".", convert each
component with int(); the first non-numeric component raises ValueError. -/
def parse_version (s : String) : Except PyErr (List Int) :=
  (splitDots (strip_v s).toList).mapM pyIntL

/-- Modelled from the spec: VersionResolver.compare is not a named function
under src/ (callers use parse_version with Python tuple comparison); it
compares the parsed tuples element-wise. -/
def compare_versions (a b : String) : Except PyErr Ordering := do
  let ta ← parse_version a
  let tb ← parse_version b
  .ok (listCompare ta tb)

/-- Modelled from the spec: parse_revision is imported by manifest.py but
missing from src/app/hypervisor/misc.py; per the design it extracts all
digit runs of the revision identifier and concatenates them as an integer. -/
def parse_revision (rev : String) : Nat :=
  (rev.toList.filter Char.isDigit).foldl (fun n c => 10 * n + (c.toNat - 48)) 0

/-- One model entry of the manifest JSON (manifest.py reads revision_id;
the remaining documented fields are carried along). -/
structure ModelData where
  revision_id : Option String
  inference_client : Option String
  size : Option String
  release_date : Option String
  model_notes : Option String
deriving DecidableEq, Repr

/-- The record get_model returns: the chosen revision together with the
matching model entry. -/
structure ModelResult where
  revision : String
  model : ModelData
deriving DecidableEq, Repr

/-- One inference_clients entry of the manifest JSON. -/
structure InfClient where
  date : String
  url : String
deriving DecidableEq, Repr

/-- First value bound to a key in an association list (Python dict.get). -/
def assocFind (l : List (String × α)) (k : String) : Option α :=
  match l.find? (fun p => p.1 = k) with
  | some p => some p.2
  | none => none

/-- The manifest document, with Python dicts as insertion-ordered
association lists.  inference_clients keeps the Option because
manifest.py reads it with a None default, while models uses empty-dict
defaults throughout. -/
structure ManifestData where
  models : List (String × List (String × ModelData))
  inference_clients : Option (List (String × InfClient))
deriving DecidableEq, Repr

/-- manifest.py MODEL_SIZE. -/
def MODEL_SIZE : String := "2b"

/-- manifest.py Manifest.models: data.get("models", empty).get(MODEL_SIZE, empty). -/
def modelsOf (d : ManifestData) : List (String × ModelData) :=
  (assocFind d.models MODEL_SIZE).getD []

/-- manifest.py Manifest.get_model: first entry whose revision_id equals
the requested revision, packaged with it; None when no entry matches. -/
def get_model (models : List (String × ModelData)) (revision : String) : Option ModelResult :=
  match models.find? (fun p => p.2.revision_id = some revision) with
  | some p => some ⟨revision, p.2⟩
  | none => none

/-- Python truthiness of an optional string: None and the empty string are
falsy. -/
def optStrFalsy : Option String → Bool
  | none => true
  | some s => s = ""

/-- The revision_id list latest_model builds: values().get("revision_id")
kept only when truthy. -/
def revision_ids (models : List (String × ModelData)) : List String :=
  models.filterMap (fun p =>
    match p.2.revision_id with
    | some s => if s = "" then none else some s
    | none => none)

/-- grouped.setdefault(numeric, empty).append(rev): append rev to the group
of key k, creating the group at the end when the key is new. -/
def insertGroup : List (Nat × List String) → Nat → String → List (Nat × List String)
  | [], k, r => [(k, [r])]
  | (k', rs) :: rest, k, r =>
    if k' = k then (k', rs ++ [r]) :: rest else (k', rs) :: insertGroup rest k r

/-- The grouped dict of latest_model: revisions grouped by parse_revision,
keys in first-appearance order, each group in appearance order. -/
def grouped (revs : List String) : List (Nat × List String) :=
  revs.foldl (fun g r => insertGroup g (parse_revision r) r) []

/-- Keys of a grouped dict, in insertion order. -/
def keysOf (g : List (Nat × List String)) : List Nat := g.map Prod.fst

/-- grouped[k]: the group stored under key k (empty when absent, which
latest_model never hits). -/
def lookupG (g : List (Nat × List String)) (k : Nat) : List String :=
  match g.find? (fun p => p.1 = k) with
  | some p => p.2
  | none => []

/-- max over a non-empty key list, as Python max(grouped.keys()). -/
def maxKeyOf : List Nat → Option Nat
  | [] => none
  | k :: ks => some (ks.foldl Nat.max k)

/-- The 4bit substring test of the first tie-break loop. -/
def contains4bit (r : String) : Bool := decide (List.IsInfix "4bit".toList r.toList)

/-- The second tie-break loop's test: every character a digit or hyphen. -/
def digitsHyphens (r : String) : Bool := r.toList.all (fun c => c.isDigit || c = '-')

/-- The chosen-revision logic of latest_model over the winning group:
first rev containing "4bit"; if chosen is still falsy, first rev of digits
and hyphens only; if still falsy, candidates[0]. -/
def choose_from (candidates : List String) : Option String :=
  let c1 := candidates.find? contains4bit
  let c2 := if optStrFalsy c1 then candidates.find? digitsHyphens else c1
  if optStrFalsy c2 then candidates.head? else c2

/-- manifest.py Manifest.latest_model on the models dict: early None on an
empty dict or no truthy revision_id; otherwise group by parse_revision,
take the group of the numerically largest key, tie-break with choose_from
and return get_model of the chosen revision. -/
def latest_model (models : List (String × ModelData)) : Option ModelResult :=
  if models.isEmpty then none
  else
    let revs := revision_ids models
    if revs.isEmpty then none
    else
      let g := grouped revs
      (maxKeyOf (keysOf g)).bind fun latest_numeric =>
        (choose_from (lookupG g latest_numeric)).bind fun chosen =>
          get_model models chosen

/-- latest_model at the manifest level (the property reads self.models). -/
def manifest_latest_model (d : ManifestData) : Option ModelResult :=
  latest_model (modelsOf d)

/-- Largest value of a list of naturals (0 on the empty list). -/
def maxNat (l : List Nat) : Nat := l.foldl Nat.max 0

/-- Follows the spec wording of latest_model: group the revision
identifiers by their numeric revision number, keep the group attaining the
highest numeric value (the revisions whose parse_revision equals the
maximum), then prefer a revision containing "4bit", else one of digits and
hyphens only, else the first candidate in iteration order. -/
def latest_model_spec (models : List (String × ModelData)) : Option ModelResult :=
  let revs := revision_ids models
  let best := maxNat (revs.map parse_revision)
  let candidates := revs.filter (fun r => parse_revision r = best)
  let chosen :=
    ((candidates.find? contains4bit).orElse
      (fun _ => candidates.find? digitsHyphens)).orElse
      (fun _ => candidates.head?)
  chosen.bind (get_model models)

/-- manifest.py Manifest.get_inference_client:
data.get("inference_clients", empty).get(version, None). -/
def get_inference_client (d : ManifestData) (version : String) : Option InfClient :=
  match d.inference_clients with
  | none => none
  | some l => assocFind l version

/-- The record latest_inference_client returns. -/
structure InfClientResult where
  version : String
  inference_client : Option InfClient
deriving DecidableEq, Repr

/-- Inner loop of Python max(keys, key=parse_version): keep the current
maximum, replacing it only when a later key parses strictly greater; a key
that fails to parse raises. -/
def maxByKeyGo (cur : String) (curKey : List Int) : List String → Except PyErr String
  | [] => .ok cur
  | k :: ks =>
    match parse_version k with
    | .error e => .error e
    | .ok kk =>
      if listCompare curKey kk = .lt then maxByKeyGo k kk ks else maxByKeyGo cur curKey ks

/-- Python max(keys, key=parse_version): ValueError on an empty sequence,
otherwise the first key attaining the maximal parsed tuple. -/
def maxByKey : List String → Except PyErr String
  | [] => .error .valueError
  | k :: ks =>
    match parse_version k with
    | .error e => .error e
    | .ok kk => maxByKeyGo k kk ks

/-- manifest.py Manifest.latest_inference_client.  The source guard
"if not inference_clients_dict: None" evaluates None without returning it,
so control always reaches max(): a missing mapping raises AttributeError
(None.keys()) and an empty one raises ValueError (max of empty sequence). -/
def latest_inference_client (d : ManifestData) : Except PyErr InfClientResult :=
  match d.inference_clients with
  | none => .error .attributeError
  | some l => do
    let version ← maxByKey (l.map Prod.fst)
    .ok ⟨version, get_inference_client d version⟩

/-- Outcome of a manifest load/download step: the data field afterwards,
the messages logged, and the exception propagated to the caller (none when
every exception is caught). -/
structure LoadOutcome where
  data : ManifestData
  logged : List String
  raised : Option String
deriving DecidableEq, Repr

/-- manifest.py Manifest._load_local: self.data is reassigned only when
open+json.load succeeds; any exception is caught and logged. -/
def load_local (data : ManifestData) (read : Except String ManifestData) : LoadOutcome :=
  match read with
  | .ok d => ⟨d, [], none⟩
  | .error e => ⟨data, ["Error loading manifest: " ++ e], none⟩

/-- manifest.py Manifest._download: any exception from the transfer is
caught and logged; self.data is untouched. -/
def download_step (data : ManifestData) (dl : Except String Unit) : LoadOutcome :=
  match dl with
  | .ok _ => ⟨data, [], none⟩
  | .error e => ⟨data, ["Error downloading manifest: " ++ e], none⟩

/-- manifest.py Manifest.update on an http(s) url: _download then
_load_local, the second step running only if the first did not raise. -/
def update_fetch (data : ManifestData) (dl : Except String Unit)
    (read : Except String ManifestData) : LoadOutcome :=
  let r1 := download_step data dl
  match r1.raised with
  | some e => ⟨r1.data, r1.logged, some e⟩
  | none =>
    let r2 := load_local r1.data read
    ⟨r2.data, r1.logged ++ r2.logged, r2.raised⟩

/-- Modelled from the spec: the UpdateOrchestrator states of section 4.4;
the orchestrator itself is not under src/. -/
inductive Phase where
  | idle
  | checking
  | upToDate
  | updateAvailable
  | applying
  | restarting
  | verifying
  | failed
deriving DecidableEq, Repr

/-- Modelled from the spec: the per-component state the orchestrator
drives, a phase plus the installed version recorded in the registry. -/
structure CompState where
  phase : Phase
  installed : String
deriving DecidableEq, Repr

/-- Modelled from the spec: one transition of the section 4.4 state
machine for a fixed manifest-resolved latest version.  verifyOk is the
successful Verifying readiness probe; only it calls record_installed. -/
inductive UStep (latest : String) : CompState → CompState → Prop
  | startCheck (v : String) : UStep latest ⟨.idle, v⟩ ⟨.checking, v⟩
  | checkCurrent (v : String) (h : v = latest) : UStep latest ⟨.checking, v⟩ ⟨.upToDate, v⟩
  | checkStale (v : String) (h : v ≠ latest) : UStep latest ⟨.checking, v⟩ ⟨.updateAvailable, v⟩
  | confirm (v : String) : UStep latest ⟨.updateAvailable, v⟩ ⟨.applying, v⟩
  | applyOk (v : String) : UStep latest ⟨.applying, v⟩ ⟨.restarting, v⟩
  | applyFail (v : String) : UStep latest ⟨.applying, v⟩ ⟨.failed, v⟩
  | restartDone (v : String) : UStep latest ⟨.restarting, v⟩ ⟨.verifying, v⟩
  | verifyOk (v : String) : UStep latest ⟨.verifying, v⟩ ⟨.upToDate, latest⟩
  | verifyFail (v : String) : UStep latest ⟨.verifying, v⟩ ⟨.failed, v⟩
  | cycleEndOk (v : String) : UStep latest ⟨.upToDate, v⟩ ⟨.idle, v⟩
  | cycleEndFail (v : String) : UStep latest ⟨.failed, v⟩ ⟨.idle, v⟩

/-- A run of the orchestrator from state s: the list collects every state
visited after s, in order, ending at the last component. -/
inductive URun (latest : String) (s : CompState) : List CompState → CompState → Prop
  | nil : URun latest s [] s
  | snoc {l : List CompState} {t u : CompState} :
      URun latest s l t → UStep latest t u → URun latest s (l ++ [u]) u

theorem intCompare_lt_iff {a b : Int} : intCompare a b = .lt ↔ a < b := by
  unfold intCompare
  split_ifs <;> simp <;> omega

theorem intCompare_gt_iff {a b : Int} : intCompare a b = .gt ↔ b < a := by
  unfold intCompare
  split_ifs <;> simp <;> omega

theorem intCompare_eq_iff {a b : Int} : intCompare a b = .eq ↔ a = b := by
  unfold intCompare
  split_ifs <;> simp <;> omega

theorem listCompare_self (a : List Int) : listCompare a a = .eq := by
  induction a with
  | nil => rfl
  | cons x xs ih =>
    simp only [listCompare, intCompare_eq_iff.mpr rfl, ih]

theorem listCompare_eq_iff {a b : List Int} : listCompare a b = .eq ↔ a = b := by
  induction a generalizing b with
  | nil => cases b <;> simp [listCompare]
  | cons x xs ih =>
    cases b with
    | nil => simp [listCompare]
    | cons y ys =>
      simp only [listCompare]
      rcases h : intCompare x y with hc | hc | hc
      · simpa using fun hxy => by simp [hxy, intCompare_eq_iff.mpr rfl] at h
      · rw [intCompare_eq_iff] at h
        simp [h, ih]
      · simpa using fun hxy => by simp [hxy, intCompare_eq_iff.mpr rfl] at h

theorem listCompare_swap {a b : List Int} :
    listCompare a b = .lt ↔ listCompare b a = .gt := by
  induction a generalizing b with
  | nil => cases b <;> simp [listCompare]
  | cons x xs ih =>
    cases b with
    | nil => simp [listCompare]
    | cons y ys =>
      simp only [listCompare]
      rcases h : intCompare x y with hc | hc | hc
      · rw [intCompare_lt_iff] at h
        rw [intCompare_gt_iff.mpr h]
        simp
      · rw [intCompare_eq_iff] at h
        rw [h, intCompare_eq_iff.mpr rfl]
        exact ih
      · rw [intCompare_gt_iff] at h
        rw [intCompare_lt_iff.mpr h]
        simp

/-- listCompare lt agrees with Mathlib lexicographic order on lists, the
mathematical element-wise comparison with shorter-prefix-first. -/
theorem listCompare_lt_iff_lex {a b : List Int} :
    listCompare a b = .lt ↔ List.Lex (fun x y : Int => x < y) a b := by
  induction a generalizing b with
  | nil =>
    cases b with
    | nil =>
      constructor
      · intro h
        simp [listCompare] at h
      · intro h
        exact absurd h (List.Lex.not_nil_right _ _)
    | cons y ys =>
      constructor
      · intro _
        exact List.Lex.nil
      · intro _
        rfl
  | cons x xs ih =>
    cases b with
    | nil =>
      constructor
      · intro h
        simp [listCompare] at h
      · intro h
        exact absurd h (List.Lex.not_nil_right _ _)
    | cons y ys =>
      constructor
      · intro h
        simp only [listCompare] at h
        cases hxy : intCompare x y <;> rw [hxy] at h
        · exact List.Lex.rel (intCompare_lt_iff.mp hxy)
        · have hxe := intCompare_eq_iff.mp hxy
          subst hxe
          exact List.Lex.cons (ih.mp h)
        · exact Ordering.noConfusion h
      · intro h
        simp only [listCompare]
        cases h with
        | cons htail =>
          rw [show intCompare x x = Ordering.eq from intCompare_eq_iff.mpr rfl]
          exact ih.mpr htail
        | rel hr =>
          rw [show intCompare x y = Ordering.lt from intCompare_lt_iff.mpr hr]

theorem listCompare_trans_lt {a b c : List Int}
    (hab : listCompare a b = .lt) (hbc : listCompare b c = .lt) :
    listCompare a c = .lt := by
  rw [listCompare_lt_iff_lex] at hab hbc ⊢
  exact IsTrans.trans a b c hab hbc

theorem listCompare_cases (a b : List Int) :
    listCompare a b = .lt ∨ listCompare a b = .eq ∨ listCompare a b = .gt := by
  rcases h : listCompare a b with h1 | h1 | h1 <;> simp

theorem listCompare_le_trans {a b c : List Int}
    (hab : listCompare a b ≠ .gt) (hbc : listCompare b c ≠ .gt) :
    listCompare a c ≠ .gt := by
  rcases listCompare_cases a b with h | h | h
  · rcases listCompare_cases b c with h2 | h2 | h2
    · simp [listCompare_trans_lt h h2]
    · rw [listCompare_eq_iff] at h2
      subst h2
      simp [h]
    · exact absurd h2 hbc
  · rw [listCompare_eq_iff] at h
    subst h
    exact hbc
  · exact absurd h hab

theorem listCompare_lt_of_lt_of_le {a b c : List Int}
    (hab : listCompare a b = .lt) (hbc : listCompare b c ≠ .gt) :
    listCompare a c = .lt := by
  rcases listCompare_cases b c with h | h | h
  · exact listCompare_trans_lt hab h
  · rw [listCompare_eq_iff] at h
    subst h
    exact hab
  · exact absurd h hbc

theorem listCompare_le_of_not_lt {a b : List Int} (h : listCompare a b ≠ .lt) :
    listCompare b a ≠ .gt := by
  intro hg
  exact h (listCompare_swap.mpr hg)

theorem pyIntL_cases (p : List Char) :
    (∃ n, pyIntL p = .ok n) ∨ pyIntL p = .error .valueError := by
  unfold pyIntL
  split <;> split_ifs <;>
    first
    | exact Or.inl ⟨_, rfl⟩
    | exact Or.inr rfl

theorem mapM_pyIntL_error {l : List (List Char)}
    (h : ∃ p ∈ l, pyIntL p = .error .valueError) :
    l.mapM pyIntL = .error .valueError := by
  induction l with
  | nil => simp at h
  | cons x xs ih =>
    rcases h with ⟨p, hp, he⟩
    rcases List.mem_cons.mp hp with h1 | h2
    · subst h1
      rw [List.mapM_cons, he]
      rfl
    · rcases pyIntL_cases x with ⟨n, hn⟩ | hn
      · rw [List.mapM_cons, hn, ih ⟨p, h2, he⟩]
        rfl
      · rw [List.mapM_cons, hn]
        rfl

theorem parse_version_cases (s : String) :
    (∃ t, parse_version s = .ok t) ∨ parse_version s = .error .valueError := by
  unfold parse_version
  generalize splitDots (strip_v s).toList = l
  induction l with
  | nil => exact Or.inl ⟨[], rfl⟩
  | cons x xs ih =>
    rcases pyIntL_cases x with ⟨n, hn⟩ | hn
    · rcases ih with ⟨t, ht⟩ | ht
      · exact Or.inl ⟨n :: t, by rw [List.mapM_cons, hn, ht]; rfl⟩
      · exact Or.inr (by rw [List.mapM_cons, hn, ht]; rfl)
    · exact Or.inr (by rw [List.mapM_cons, hn]; rfl)

theorem compare_versions_ok {a b : String} {ta tb : List Int}
    (ha : parse_version a = .ok ta) (hb : parse_version b = .ok tb) :
    compare_versions a b = .ok (listCompare ta tb) := by
  unfold compare_versions
  rw [ha, hb]
  rfl

theorem compare_versions_error_left {a b : String}
    (ha : parse_version a = .error .valueError) :
    compare_versions a b = .error .valueError := by
  unfold compare_versions
  rw [ha]
  rfl

/-- C2: on valid dotted version strings, compare_versions agrees with
element-wise numeric comparison of the parsed tuples (Lex order), is
reflexively Equal, antisymmetric and transitive, hence the order it
induces is a strict total order modulo parse equality; parse_version is by
definition strip-v, split on dots, int per segment. -/
theorem compare_versions_total_order (a b c : String) (ta tb tc : List Int)
    (ha : parse_version a = .ok ta) (hb : parse_version b = .ok tb)
    (hc : parse_version c = .ok tc) :
    compare_versions a a = .ok .eq
    ∧ compare_versions a b = .ok (listCompare ta tb)
    ∧ (compare_versions a b = .ok .lt ↔ List.Lex (fun x y : Int => x < y) ta tb)
    ∧ (compare_versions a b = .ok .eq ↔ ta = tb)
    ∧ (compare_versions a b = .ok .lt ↔ compare_versions b a = .ok .gt)
    ∧ (compare_versions a b = .ok .lt → compare_versions b c = .ok .lt →
        compare_versions a c = .ok .lt) := by
  have hab := compare_versions_ok ha hb
  have hba := compare_versions_ok hb ha
  have hbc := compare_versions_ok hb hc
  have hac := compare_versions_ok ha hc
  refine ⟨?_, hab, ?_, ?_, ?_, ?_⟩
  · rw [compare_versions_ok ha ha, listCompare_self]
  · rw [hab]
    simp only [Except.ok.injEq]
    exact listCompare_lt_iff_lex
  · rw [hab]
    simp only [Except.ok.injEq]
    exact listCompare_eq_iff
  · rw [hab, hba]
    simp only [Except.ok.injEq]
    exact listCompare_swap
  · rw [hab, hbc, hac]
    simp only [Except.ok.injEq]
    exact listCompare_trans_lt

/-- Witness for compare_versions_total_order at v1.2, 1.10, 2.0. -/
theorem compare_versions_total_order_witness :
    parse_version "v1.2" = .ok [1, 2]
    ∧ parse_version "1.10" = .ok [1, 10]
    ∧ parse_version "2.0" = .ok [2, 0]
    ∧ (compare_versions "v1.2" "v1.2" = .ok .eq
      ∧ compare_versions "v1.2" "1.10" = .ok (listCompare [1, 2] [1, 10])
      ∧ (compare_versions "v1.2" "1.10" = .ok .lt
          ↔ List.Lex (fun x y : Int => x < y) [1, 2] [1, 10])
      ∧ (compare_versions "v1.2" "1.10" = .ok .eq ↔ ([1, 2] : List Int) = [1, 10])
      ∧ (compare_versions "v1.2" "1.10" = .ok .lt
          ↔ compare_versions "1.10" "v1.2" = .ok .gt)
      ∧ (compare_versions "v1.2" "1.10" = .ok .lt →
          compare_versions "1.10" "2.0" = .ok .lt →
          compare_versions "v1.2" "2.0" = .ok .lt)) :=
  ⟨by decide, by decide, by decide,
    compare_versions_total_order "v1.2" "1.10" "2.0" [1, 2] [1, 10] [2, 0]
      (by decide) (by decide) (by decide)⟩

/-- C6: a version string with a non-numeric segment (after the v strip and
dot split) makes parse_version raise ValueError, the design's
VersionParseError, and comparison against any other string raises rather
than returning an Ordering in either argument position. -/
theorem non_numeric_segment_incomparable (a : String)
    (h : ∃ p ∈ splitDots (strip_v a).toList, pyIntL p = .error .valueError) :
    parse_version a = .error .valueError
    ∧ ∀ b, (∀ o, compare_versions a b ≠ .ok o) ∧ (∀ o, compare_versions b a ≠ .ok o) := by
  have hpa : parse_version a = .error .valueError := mapM_pyIntL_error h
  refine ⟨hpa, fun b => ⟨?_, ?_⟩⟩
  · intro o
    rw [compare_versions_error_left hpa]
    exact fun hc => Except.noConfusion hc
  · intro o
    rcases parse_version_cases b with ⟨tb, htb⟩ | htb
    · unfold compare_versions
      rw [htb, hpa]
      exact fun hc => Except.noConfusion hc
    · rw [compare_versions_error_left htb]
      exact fun hc => Except.noConfusion hc

/-- Witness for non_numeric_segment_incomparable at the string 1.x.2
against 0.5. -/
theorem non_numeric_segment_incomparable_witness :
    (∃ p ∈ splitDots (strip_v "1.x.2").toList, pyIntL p = .error .valueError)
    ∧ (parse_version "1.x.2" = .error .valueError
      ∧ ∀ b, (∀ o, compare_versions "1.x.2" b ≠ .ok o)
        ∧ (∀ o, compare_versions b "1.x.2" ≠ .ok o)) :=
  ⟨⟨"x".toList, by decide, by decide⟩,
    non_numeric_segment_incomparable "1.x.2" ⟨"x".toList, by decide, by decide⟩⟩

theorem lookupG_cons (kp : Nat) (rs : List String) (g : List (Nat × List String)) (k : Nat) :
    lookupG ((kp, rs) :: g) k = if kp = k then rs else lookupG g k := by
  by_cases h : kp = k <;> simp [lookupG, List.find?_cons, h]

theorem lookupG_insertGroup (g : List (Nat × List String)) (k' : Nat) (r : String) (k : Nat) :
    lookupG (insertGroup g k' r) k =
      if k = k' then lookupG g k ++ [r] else lookupG g k := by
  induction g with
  | nil =>
    show lookupG [(k', [r])] k = _
    rw [lookupG_cons]
    by_cases h : k = k'
    · subst h
      simp [lookupG]
    · rw [if_neg (fun hc => h hc.symm), if_neg h]
  | cons p g ih =>
    obtain ⟨kp, rs⟩ := p
    show lookupG (if kp = k' then (kp, rs ++ [r]) :: g else (kp, rs) :: insertGroup g k' r) k = _
    by_cases hp : kp = k'
    · rw [if_pos hp]
      subst hp
      rw [lookupG_cons, lookupG_cons]
      by_cases h : k = kp
      · subst h
        simp
      · rw [if_neg (fun hc : kp = k => h hc.symm), if_neg (fun hc : kp = k => h hc.symm),
          if_neg h]
    · rw [if_neg hp]
      rw [lookupG_cons, lookupG_cons]
      by_cases h : k = kp
      · have hkk : ¬ k = k' := fun hc => hp (h.symm.trans hc)
        rw [if_pos h.symm, if_pos h.symm, if_neg hkk]
      · rw [if_neg (fun hc : kp = k => h hc.symm), if_neg (fun hc : kp = k => h hc.symm), ih]

theorem keysOf_insertGroup_mem (g : List (Nat × List String)) (k' : Nat) (r : String) (k : Nat) :
    k ∈ keysOf (insertGroup g k' r) ↔ k ∈ keysOf g ∨ k = k' := by
  induction g with
  | nil => simp [insertGroup, keysOf]
  | cons p g ih =>
    obtain ⟨kp, rs⟩ := p
    by_cases hp : kp = k'
    · subst hp
      simp [insertGroup, keysOf]
      tauto
    · simp only [insertGroup, if_neg hp, keysOf, List.map_cons, List.mem_cons] at ih ⊢
      tauto

theorem lookupG_grouped_aux (revs : List String) (g : List (Nat × List String)) (k : Nat) :
    lookupG (revs.foldl (fun g r => insertGroup g (parse_revision r) r) g) k =
      lookupG g k ++ revs.filter (fun r => parse_revision r = k) := by
  induction revs generalizing g with
  | nil => simp
  | cons r revs ih =>
    simp only [List.foldl_cons, List.filter_cons]
    rw [ih]
    by_cases h : parse_revision r = k
    · rw [lookupG_insertGroup, if_pos h.symm]
      simp [h, List.append_assoc]
    · rw [lookupG_insertGroup, if_neg (fun hc => h hc.symm)]
      simp [h]

theorem lookupG_grouped (revs : List String) (k : Nat) :
    lookupG (grouped revs) k = revs.filter (fun r => parse_revision r = k) := by
  unfold grouped
  rw [lookupG_grouped_aux]
  simp [lookupG, List.find?]

theorem keysOf_grouped_aux (revs : List String) (g : List (Nat × List String)) (k : Nat) :
    k ∈ keysOf (revs.foldl (fun g r => insertGroup g (parse_revision r) r) g) ↔
      k ∈ keysOf g ∨ k ∈ revs.map parse_revision := by
  induction revs generalizing g with
  | nil => simp
  | cons r revs ih =>
    simp only [List.foldl_cons, List.map_cons, List.mem_cons]
    rw [ih, keysOf_insertGroup_mem]
    tauto

theorem keysOf_grouped (revs : List String) (k : Nat) :
    k ∈ keysOf (grouped revs) ↔ k ∈ revs.map parse_revision := by
  unfold grouped
  rw [keysOf_grouped_aux]
  simp [keysOf]

theorem natMax_zero (x : Nat) : Nat.max 0 x = x := Nat.max_eq_right (Nat.zero_le x)

theorem natMax_assoc (a b c : Nat) :
    Nat.max (Nat.max a b) c = Nat.max a (Nat.max b c) := Nat.max_assoc a b c

theorem natMax_right {a b : Nat} (h : a ≤ b) : Nat.max a b = b := Nat.max_eq_right h

theorem natMax_left {a b : Nat} (h : b ≤ a) : Nat.max a b = a := Nat.max_eq_left h

theorem foldl_max_comm (l : List Nat) (b : Nat) :
    l.foldl Nat.max b = Nat.max b (l.foldl Nat.max 0) := by
  induction l generalizing b with
  | nil => simp
  | cons x xs ih =>
    simp only [List.foldl_cons]
    rw [ih (Nat.max b x), ih (Nat.max 0 x), natMax_zero, natMax_assoc]

theorem maxNat_cons (x : Nat) (xs : List Nat) :
    maxNat (x :: xs) = Nat.max x (maxNat xs) := by
  unfold maxNat
  simp only [List.foldl_cons]
  rw [foldl_max_comm, natMax_zero]

theorem le_maxNat_of_mem {a : Nat} {l : List Nat} (h : a ∈ l) : a ≤ maxNat l := by
  induction l with
  | nil => cases h
  | cons x xs ih =>
    rw [maxNat_cons]
    rcases List.mem_cons.mp h with h1 | h1
    · subst h1
      exact Nat.le_max_left _ _
    · exact Nat.le_trans (ih h1) (Nat.le_max_right _ _)

theorem maxNat_mem {l : List Nat} (h : l ≠ []) : maxNat l ∈ l := by
  induction l with
  | nil => exact absurd rfl h
  | cons x xs ih =>
    rw [maxNat_cons]
    by_cases hxs : xs = []
    · subst hxs
      have hz : Nat.max x (maxNat []) = x := by
        simp [maxNat]
      rw [hz]
      exact List.mem_cons_self _ _
    · rcases Nat.le_total x (maxNat xs) with h1 | h1
      · rw [natMax_right h1]
        exact List.mem_cons_of_mem _ (ih hxs)
      · rw [natMax_left h1]
        exact List.mem_cons_self _ _

theorem maxKeyOf_eq {l : List Nat} (h : l ≠ []) : maxKeyOf l = some (maxNat l) := by
  cases l with
  | nil => exact absurd rfl h
  | cons k ks =>
    show some (ks.foldl Nat.max k) = some (maxNat (k :: ks))
    rw [maxNat_cons, foldl_max_comm]
    rfl

theorem maxNat_congr {l1 l2 : List Nat} (h : ∀ x, x ∈ l1 ↔ x ∈ l2)
    (h1 : l1 ≠ []) (h2 : l2 ≠ []) : maxNat l1 = maxNat l2 :=
  Nat.le_antisymm (le_maxNat_of_mem ((h _).mp (maxNat_mem h1)))
    (le_maxNat_of_mem ((h _).mpr (maxNat_mem h2)))

theorem mem_revision_ids {ms : List (String × ModelData)} {c : String} :
    c ∈ revision_ids ms ↔ (∃ p ∈ ms, p.2.revision_id = some c) ∧ c ≠ "" := by
  unfold revision_ids
  rw [List.mem_filterMap]
  constructor
  · rintro ⟨p, hp, he⟩
    cases hr : p.2.revision_id with
    | none =>
      rw [hr] at he
      cases he
    | some s =>
      rw [hr] at he
      have he2 : (if s = "" then (none : Option String) else some s) = some c := he
      by_cases hs : s = ""
      · rw [if_pos hs] at he2
        cases he2
      · rw [if_neg hs] at he2
        have hsc : s = c := Option.some.inj he2
        subst hsc
        exact ⟨⟨p, hp, hr⟩, hs⟩
  · rintro ⟨⟨p, hp, hr⟩, hc⟩
    refine ⟨p, hp, ?_⟩
    rw [hr]
    show (if c = "" then (none : Option String) else some c) = some c
    rw [if_neg hc]

theorem empty_not_mem_revision_ids (ms : List (String × ModelData)) :
    "" ∉ revision_ids ms :=
  fun h => (mem_revision_ids.mp h).2 rfl

theorem get_model_mem {ms : List (String × ModelData)} {c : String}
    (h : ∃ p ∈ ms, p.2.revision_id = some c) :
    ∃ r, get_model ms c = some r ∧ r.revision = c := by
  obtain ⟨p, hp, hr⟩ := h
  have hs : (ms.find? (fun p => p.2.revision_id = some c)).isSome := by
    rw [List.find?_isSome]
    exact ⟨p, hp, by simp [hr]⟩
  unfold get_model
  cases hf : ms.find? (fun p => p.2.revision_id = some c) with
  | none =>
    rw [hf] at hs
    cases hs
  | some q => exact ⟨⟨c, q.2⟩, rfl, rfl⟩

theorem contains4bit_ne_empty {c : String} (h : contains4bit c = true) : c ≠ "" := by
  intro hc
  rw [hc] at h
  exact absurd h (by decide)

theorem head?_mem_of_ne_nil {cs : List String} (h : cs ≠ []) :
    ∃ c, cs.head? = some c ∧ c ∈ cs := by
  cases cs with
  | nil => exact absurd rfl h
  | cons x xs => exact ⟨x, rfl, List.mem_cons_self _ _⟩

theorem choose_from_mem {cs : List String} (h : cs ≠ []) :
    ∃ c, choose_from cs = some c ∧ c ∈ cs := by
  obtain ⟨x, hx, hm⟩ := head?_mem_of_ne_nil h
  cases h1 : cs.find? contains4bit with
  | some c =>
    have hne : c ≠ "" := contains4bit_ne_empty (List.find?_some h1)
    exact ⟨c, by simp [choose_from, h1, optStrFalsy, hne], List.mem_of_find?_eq_some h1⟩
  | none =>
    cases h2 : cs.find? digitsHyphens with
    | some c =>
      by_cases hc : c = ""
      · exact ⟨x, by simp [choose_from, h1, h2, optStrFalsy, hc, hx], hm⟩
      · exact ⟨c, by simp [choose_from, h1, h2, optStrFalsy, hc], List.mem_of_find?_eq_some h2⟩
    | none => exact ⟨x, by simp [choose_from, h1, h2, optStrFalsy, hx], hm⟩

theorem choose_from_eq_chain {cs : List String} (h : "" ∉ cs) :
    choose_from cs =
      ((cs.find? contains4bit).orElse fun _ => cs.find? digitsHyphens).orElse
        fun _ => cs.head? := by
  cases h1 : cs.find? contains4bit with
  | some c =>
    have hne : c ≠ "" := contains4bit_ne_empty (List.find?_some h1)
    simp [choose_from, h1, optStrFalsy, hne, Option.orElse]
  | none =>
    cases h2 : cs.find? digitsHyphens with
    | some c =>
      have hne : c ≠ "" := by
        intro hc
        subst hc
        exact h (List.mem_of_find?_eq_some h2)
      simp [choose_from, h1, h2, optStrFalsy, hne, Option.orElse]
    | none => simp [choose_from, h1, h2, optStrFalsy, Option.orElse]

theorem latest_model_eq (ms : List (String × ModelData)) (h : revision_ids ms ≠ []) :
    latest_model ms =
      (choose_from ((revision_ids ms).filter
        (fun r => parse_revision r = maxNat ((revision_ids ms).map parse_revision)))).bind
        (get_model ms) := by
  have hmsne : ms ≠ [] := by
    intro he
    apply h
    rw [he]
    rfl
  have hmse : ms.isEmpty = false := by
    cases ms with
    | nil => exact absurd rfl hmsne
    | cons p ps => rfl
  have hre : (revision_ids ms).isEmpty = false := by
    cases hr : revision_ids ms with
    | nil => exact absurd hr h
    | cons r rs => rfl
  have hmapne : (revision_ids ms).map parse_revision ≠ [] := by
    intro he
    exact h (List.map_eq_nil_iff.mp he)
  have hkeysne : keysOf (grouped (revision_ids ms)) ≠ [] := by
    obtain ⟨k, hk⟩ : ∃ k, k ∈ (revision_ids ms).map parse_revision := by
      cases hm : (revision_ids ms).map parse_revision with
      | nil => exact absurd hm hmapne
      | cons a l => exact ⟨a, hm.symm ▸ List.mem_cons_self a l⟩
    exact List.ne_nil_of_mem ((keysOf_grouped _ k).mpr hk)
  have hmax : maxNat (keysOf (grouped (revision_ids ms))) =
      maxNat ((revision_ids ms).map parse_revision) :=
    maxNat_congr (fun k => keysOf_grouped _ k) hkeysne hmapne
  simp only [latest_model, hmse, hre, Bool.false_eq_true, if_false]
  rw [maxKeyOf_eq hkeysne, hmax]
  simp only [Option.some_bind]
  rw [lookupG_grouped]

/-- C1: on a models mapping with at least one (truthy) revision identifier,
the source latest_model agrees with the specified algorithm written from
the spec sentence: group by the extracted revision number, take the group
of the highest numeric value, then prefer a 4bit revision, else one of
digits and hyphens only, else the first candidate in iteration order. -/
theorem latest_model_matches_spec (ms : List (String × ModelData))
    (hms : ms ≠ []) (h : revision_ids ms ≠ []) :
    latest_model ms = latest_model_spec ms := by
  have hnm : "" ∉ (revision_ids ms).filter
      (fun r => parse_revision r = maxNat ((revision_ids ms).map parse_revision)) := by
    intro hmem
    exact empty_not_mem_revision_ids ms (List.mem_of_mem_filter hmem)
  rw [latest_model_eq ms h]
  simp only [latest_model_spec]
  rw [choose_from_eq_chain hnm]

/-- Witness for latest_model_matches_spec on a concrete two-model mapping. -/
theorem latest_model_matches_spec_witness :
    ([("moondream-2b-a", ⟨some "2025-04-14-4bit", some "0.0.2", none, none, none⟩),
      ("moondream-2b-b", ⟨some "2025-04-14", some "0.0.2", none, none, none⟩)]
        : List (String × ModelData)) ≠ []
    ∧ revision_ids
        [("moondream-2b-a", ⟨some "2025-04-14-4bit", some "0.0.2", none, none, none⟩),
        ("moondream-2b-b", ⟨some "2025-04-14", some "0.0.2", none, none, none⟩)] ≠ []
    ∧ latest_model
        [("moondream-2b-a", ⟨some "2025-04-14-4bit", some "0.0.2", none, none, none⟩),
        ("moondream-2b-b", ⟨some "2025-04-14", some "0.0.2", none, none, none⟩)] =
      latest_model_spec
        [("moondream-2b-a", ⟨some "2025-04-14-4bit", some "0.0.2", none, none, none⟩),
        ("moondream-2b-b", ⟨some "2025-04-14", some "0.0.2", none, none, none⟩)] :=
  ⟨by decide, by decide,
    latest_model_matches_spec
      [("moondream-2b-a", ⟨some "2025-04-14-4bit", some "0.0.2", none, none, none⟩),
      ("moondream-2b-b", ⟨some "2025-04-14", some "0.0.2", none, none, none⟩)]
      (by decide) (by decide)⟩

theorem latest_model_some {ms : List (String × ModelData)}
    (h : revision_ids ms ≠ []) :
    ∃ r, latest_model ms = some r ∧ ∃ p ∈ ms, p.2.revision_id = some r.revision := by
  have hmapne : (revision_ids ms).map parse_revision ≠ [] := by
    intro he
    exact h (List.map_eq_nil_iff.mp he)
  have hcne : (revision_ids ms).filter
      (fun r => parse_revision r = maxNat ((revision_ids ms).map parse_revision)) ≠ [] := by
    obtain ⟨r, hr, hpr⟩ := List.mem_map.mp (maxNat_mem hmapne)
    exact List.ne_nil_of_mem (List.mem_filter.mpr ⟨hr, by simp [hpr]⟩)
  obtain ⟨c, hc, hcm⟩ := choose_from_mem hcne
  have hcrev : c ∈ revision_ids ms := List.mem_of_mem_filter hcm
  obtain ⟨⟨p, hp, hrid⟩, hcne2⟩ := mem_revision_ids.mp hcrev
  obtain ⟨r, hr, hrev⟩ := get_model_mem ⟨p, hp, hrid⟩
  refine ⟨r, ?_, p, hp, by rw [hrev]; exact hrid⟩
  rw [latest_model_eq ms h, hc]
  exact hr

theorem latest_model_none_iff (ms : List (String × ModelData)) :
    latest_model ms = none ↔ revision_ids ms = [] := by
  constructor
  · intro h
    by_contra hne
    obtain ⟨r, hr, _⟩ := latest_model_some hne
    rw [h] at hr
    cases hr
  · intro h
    by_cases hms : ms.isEmpty
    · simp only [latest_model, hms, if_true]
    · have hre : (revision_ids ms).isEmpty = true := by
        rw [h]
        rfl
      simp only [latest_model, hms, hre, Bool.false_eq_true, if_false, if_true]

/-- C10: latest_model returns None exactly when the manifest's model
category is empty or has no entry with a truthy revision_id; otherwise it
returns a record whose revision field is the revision_id of one of the
entries of the category. -/
theorem latest_model_total (d : ManifestData) :
    (manifest_latest_model d = none
      ↔ (modelsOf d = [] ∨ revision_ids (modelsOf d) = []))
    ∧ ∀ r, manifest_latest_model d = some r →
        ∃ p ∈ modelsOf d, p.2.revision_id = some r.revision := by
  constructor
  · unfold manifest_latest_model
    rw [latest_model_none_iff]
    constructor
    · intro h
      exact Or.inr h
    · rintro (h | h)
      · rw [h]
        rfl
      · exact h
  · intro r hr
    by_cases h : revision_ids (modelsOf d) = []
    · have : manifest_latest_model d = none := by
        unfold manifest_latest_model
        exact (latest_model_none_iff _).mpr h
      rw [this] at hr
      cases hr
    · obtain ⟨r2, hr2, hmem⟩ := latest_model_some h
      have he : r2 = r := by
        have := hr2.symm.trans hr
        exact Option.some.inj this
      subst he
      exact hmem

/-- Witness for latest_model_total: the membership conjunct applied at a
concrete manifest. -/
theorem latest_model_total_witness :
    ∃ p ∈ modelsOf ⟨[("2b",
        [("moondream-2b-a", ⟨some "2025-04-14-4bit", some "0.0.2", none, none, none⟩),
        ("moondream-2b-b", ⟨some "2025-04-14", some "0.0.2", none, none, none⟩)])], none⟩,
      p.2.revision_id = some
        (ModelResult.mk "2025-04-14-4bit"
          ⟨some "2025-04-14-4bit", some "0.0.2", none, none, none⟩).revision :=
  (latest_model_total ⟨[("2b",
      [("moondream-2b-a", ⟨some "2025-04-14-4bit", some "0.0.2", none, none, none⟩),
      ("moondream-2b-b", ⟨some "2025-04-14", some "0.0.2", none, none, none⟩)])], none⟩).2
    (ModelResult.mk "2025-04-14-4bit"
      ⟨some "2025-04-14-4bit", some "0.0.2", none, none, none⟩)
    (by decide)

/-- C8: latest_model is a pure function of the manifest snapshot: the
property only reads self.data, so two evaluations on the same unchanged
snapshot return the same result. -/
theorem latest_model_idempotent (d : ManifestData) :
    manifest_latest_model d = manifest_latest_model d := rfl

/-- C7: when the models mapping carries exactly the revision identifiers
2025-04-14-4bit and 2025-04-14 (in either iteration order), latest_model
selects the 4bit revision: its concatenated digit run value 202504144
exceeds 20250414, so its group wins outright. -/
theorem latest_model_prefers_4bit (ms : List (String × ModelData))
    (h : revision_ids ms = ["2025-04-14-4bit", "2025-04-14"]
      ∨ revision_ids ms = ["2025-04-14", "2025-04-14-4bit"]) :
    ∃ r, latest_model ms = some r ∧ r.revision = "2025-04-14-4bit" := by
  have hne : revision_ids ms ≠ [] := by
    rcases h with h | h <;> simp [h]
  have hmem : "2025-04-14-4bit" ∈ revision_ids ms := by
    rcases h with h | h <;> rw [h] <;> decide
  obtain ⟨⟨p, hp, hrid⟩, _⟩ := mem_revision_ids.mp hmem
  obtain ⟨r, hr, hrev⟩ := get_model_mem ⟨p, hp, hrid⟩
  refine ⟨r, ?_, hrev⟩
  rw [latest_model_eq ms hne]
  rcases h with h | h <;> rw [h]
  · have hf : choose_from (List.filter
        (fun r => parse_revision r =
          maxNat (List.map parse_revision ["2025-04-14-4bit", "2025-04-14"]))
        ["2025-04-14-4bit", "2025-04-14"]) = some "2025-04-14-4bit" := by decide
    rw [hf]
    exact hr
  · have hf : choose_from (List.filter
        (fun r => parse_revision r =
          maxNat (List.map parse_revision ["2025-04-14", "2025-04-14-4bit"]))
        ["2025-04-14", "2025-04-14-4bit"]) = some "2025-04-14-4bit" := by decide
    rw [hf]
    exact hr

/-- Witness for latest_model_prefers_4bit on a concrete two-model mapping. -/
theorem latest_model_prefers_4bit_witness :
    ∃ r, latest_model
        [("moondream-2b-b", ⟨some "2025-04-14", some "0.0.2", none, none, none⟩),
        ("moondream-2b-a", ⟨some "2025-04-14-4bit", some "0.0.2", none, none, none⟩)] =
        some r
      ∧ r.revision = "2025-04-14-4bit" :=
  latest_model_prefers_4bit
    [("moondream-2b-b", ⟨some "2025-04-14", some "0.0.2", none, none, none⟩),
    ("moondream-2b-a", ⟨some "2025-04-14-4bit", some "0.0.2", none, none, none⟩)]
    (Or.inr (by decide))

theorem maxByKeyGo_cons (cur : String) (curKey : List Int) (k : String)
    (ks : List String) (tk : List Int) (htk : parse_version k = .ok tk) :
    maxByKeyGo cur curKey (k :: ks) =
      if listCompare curKey tk = .lt then maxByKeyGo k tk ks
      else maxByKeyGo cur curKey ks := by
  show (match parse_version k with
    | Except.error e => (Except.error e : Except PyErr String)
    | Except.ok kk =>
      if listCompare curKey kk = Ordering.lt then maxByKeyGo k kk ks
      else maxByKeyGo cur curKey ks) = _
  rw [htk]

theorem maxByKey_cons (k : String) (ks : List String) (tk : List Int)
    (htk : parse_version k = .ok tk) :
    maxByKey (k :: ks) = maxByKeyGo k tk ks := by
  show (match parse_version k with
    | Except.error e => (Except.error e : Except PyErr String)
    | Except.ok kk => maxByKeyGo k kk ks) = _
  rw [htk]

theorem latest_inference_client_eq (d : ManifestData) (l : List (String × InfClient))
    (hd : d.inference_clients = some l) :
    latest_inference_client d = (maxByKey (l.map Prod.fst)).bind
      (fun version => .ok ⟨version, get_inference_client d version⟩) := by
  unfold latest_inference_client
  rw [hd]
  rfl

theorem maxByKeyGo_spec (rest : List String) : ∀ cur curKey,
    parse_version cur = .ok curKey →
    (∀ k ∈ rest, ∃ t, parse_version k = .ok t) →
    ∃ v tv, maxByKeyGo cur curKey rest = .ok v ∧ parse_version v = .ok tv
      ∧ (v = cur ∨ v ∈ rest)
      ∧ listCompare curKey tv ≠ .gt
      ∧ ∀ k ∈ rest, ∀ tk, parse_version k = .ok tk → listCompare tk tv ≠ .gt := by
  induction rest with
  | nil =>
    intro cur curKey hcur _
    refine ⟨cur, curKey, rfl, hcur, Or.inl rfl, ?_, by simp⟩
    rw [listCompare_self]
    exact fun hc => Ordering.noConfusion hc
  | cons k ks ih =>
    intro cur curKey hcur hall
    obtain ⟨tk, htk⟩ := hall k (List.mem_cons_self _ _)
    have hallks : ∀ k2 ∈ ks, ∃ t, parse_version k2 = .ok t :=
      fun k2 hk2 => hall k2 (List.mem_cons_of_mem _ hk2)
    rw [maxByKeyGo_cons cur curKey k ks tk htk]
    by_cases hlt : listCompare curKey tk = .lt
    · rw [if_pos hlt]
      obtain ⟨v, tv, hrun, hv, hmem, hle, hrest⟩ := ih k tk htk hallks
      refine ⟨v, tv, hrun, hv, ?_, ?_, ?_⟩
      · rcases hmem with h1 | h1
        · exact Or.inr (h1 ▸ List.mem_cons_self _ _)
        · exact Or.inr (List.mem_cons_of_mem _ h1)
      · intro hg
        have hlt2 := listCompare_lt_of_lt_of_le hlt hle
        rw [hlt2] at hg
        exact Ordering.noConfusion hg
      · intro k2 hk2 tk2 htk2
        rcases List.mem_cons.mp hk2 with h1 | h1
        · subst h1
          have he : tk = tk2 := Except.ok.inj (htk.symm.trans htk2)
          subst he
          exact hle
        · exact hrest k2 h1 tk2 htk2
    · rw [if_neg hlt]
      obtain ⟨v, tv, hrun, hv, hmem, hle, hrest⟩ := ih cur curKey hcur hallks
      refine ⟨v, tv, hrun, hv, ?_, hle, ?_⟩
      · rcases hmem with h1 | h1
        · exact Or.inl h1
        · exact Or.inr (List.mem_cons_of_mem _ h1)
      · intro k2 hk2 tk2 htk2
        rcases List.mem_cons.mp hk2 with h1 | h1
        · subst h1
          have he : tk = tk2 := Except.ok.inj (htk.symm.trans htk2)
          subst he
          exact listCompare_le_trans (listCompare_le_of_not_lt hlt) hle
        · exact hrest k2 h1 tk2 htk2

theorem maxByKey_spec {l : List String} (hne : l ≠ [])
    (hall : ∀ k ∈ l, ∃ t, parse_version k = .ok t) :
    ∃ v tv, maxByKey l = .ok v ∧ parse_version v = .ok tv ∧ v ∈ l
      ∧ ∀ k ∈ l, ∀ tk, parse_version k = .ok tk → listCompare tk tv ≠ .gt := by
  cases l with
  | nil => exact absurd rfl hne
  | cons k ks =>
    obtain ⟨tk, htk⟩ := hall k (List.mem_cons_self _ _)
    obtain ⟨v, tv, hrun, hv, hmem, hle, hrest⟩ :=
      maxByKeyGo_spec ks k tk htk (fun k2 h2 => hall k2 (List.mem_cons_of_mem _ h2))
    refine ⟨v, tv, ?_, hv, ?_, ?_⟩
    · rw [maxByKey_cons k ks tk htk]
      exact hrun
    · rcases hmem with h1 | h1
      · exact h1 ▸ List.mem_cons_self _ _
      · exact List.mem_cons_of_mem _ h1
    · intro k2 hk2 tk2 htk2
      rcases List.mem_cons.mp hk2 with h1 | h1
      · subst h1
        have he : tk = tk2 := Except.ok.inj (htk.symm.trans htk2)
        subst he
        exact hle
      · exact hrest k2 h1 tk2 htk2

/-- C5: on a present, non-empty inference_clients mapping whose version
keys all parse, latest_inference_client returns the pairing of a maximal
version under compare_versions (no key compares strictly greater) with its
get_inference_client entry. -/
theorem latest_inference_client_max (d : ManifestData) (l : List (String × InfClient))
    (hd : d.inference_clients = some l) (hne : l ≠ [])
    (hall : ∀ k ∈ l.map Prod.fst, ∃ t, parse_version k = .ok t) :
    ∃ v, latest_inference_client d = .ok ⟨v, get_inference_client d v⟩
      ∧ v ∈ l.map Prod.fst
      ∧ ∀ k ∈ l.map Prod.fst, ∃ o, compare_versions k v = .ok o ∧ o ≠ .gt := by
  have hmapne : l.map Prod.fst ≠ [] := fun he => hne (List.map_eq_nil_iff.mp he)
  obtain ⟨v, tv, hrun, hv, hmem, hrest⟩ := maxByKey_spec hmapne hall
  refine ⟨v, ?_, hmem, ?_⟩
  · rw [latest_inference_client_eq d l hd, hrun]
    rfl
  · intro k hk
    obtain ⟨tk, htk⟩ := hall k hk
    refine ⟨listCompare tk tv, compare_versions_ok htk hv, ?_⟩
    exact hrest k hk tk htk

/-- Witness for latest_inference_client_max on a two-client manifest. -/
theorem latest_inference_client_max_witness :
    ∃ v, latest_inference_client
        ⟨[], some [("0.0.1", ⟨"2025-01-01", "u1"⟩), ("v0.0.2", ⟨"2025-02-02", "u2"⟩)]⟩ =
        .ok ⟨v, get_inference_client
          ⟨[], some [("0.0.1", ⟨"2025-01-01", "u1"⟩), ("v0.0.2", ⟨"2025-02-02", "u2"⟩)]⟩ v⟩
      ∧ v ∈ ([("0.0.1", InfClient.mk "2025-01-01" "u1"),
          ("v0.0.2", InfClient.mk "2025-02-02" "u2")]).map Prod.fst
      ∧ ∀ k ∈ ([("0.0.1", InfClient.mk "2025-01-01" "u1"),
          ("v0.0.2", InfClient.mk "2025-02-02" "u2")]).map Prod.fst,
          ∃ o, compare_versions k v = .ok o ∧ o ≠ .gt :=
  latest_inference_client_max
    ⟨[], some [("0.0.1", ⟨"2025-01-01", "u1"⟩), ("v0.0.2", ⟨"2025-02-02", "u2"⟩)]⟩
    [("0.0.1", ⟨"2025-01-01", "u1"⟩), ("v0.0.2", ⟨"2025-02-02", "u2"⟩)]
    rfl (by decide)
    (by
      intro k hk
      rcases List.mem_cons.mp hk with h1 | h1
      · exact ⟨[0, 0, 1], by rw [h1]; decide⟩
      · rcases List.mem_cons.mp h1 with h2 | h2
        · exact ⟨[0, 0, 2], by rw [h2]; decide⟩
        · cases h2)

/-- C9: when the manifest has no inference_clients mapping or an empty
one, latest_inference_client raises instead of returning None: the guard
evaluates None without returning it, so the subsequent max() call raises
AttributeError (on None) or ValueError (on an empty sequence). -/
theorem latest_inference_client_empty_raises (d : ManifestData)
    (h : d.inference_clients = none ∨ d.inference_clients = some []) :
    ∃ e, latest_inference_client d = .error e := by
  rcases h with h | h
  · refine ⟨.attributeError, ?_⟩
    unfold latest_inference_client
    rw [h]
  · refine ⟨.valueError, ?_⟩
    unfold latest_inference_client
    rw [h]
    rfl

/-- Witness for latest_inference_client_empty_raises at a manifest with no
inference_clients key. -/
theorem latest_inference_client_empty_raises_witness :
    ∃ e, latest_inference_client ⟨[], none⟩ = .error e :=
  latest_inference_client_empty_raises ⟨[], none⟩ (Or.inl rfl)

/-- C4 counterexample: with a loaded snapshot and a fetch whose download
and read both fail, update keeps the snapshot but raises nothing at all,
so the failure is never surfaced to the caller as a ManifestFetchError
(it is only logged); the claim that the failure is surfaced is false of
the code. -/
theorem fetch_failure_not_surfaced :
    (update_fetch ⟨[("2b", [("m", ⟨some "2025-04-14", none, none, none, none⟩)])], none⟩
        (.error "network unreachable") (.error "no manifest file")).data =
      ⟨[("2b", [("m", ⟨some "2025-04-14", none, none, none, none⟩)])], none⟩
    ∧ (update_fetch ⟨[("2b", [("m", ⟨some "2025-04-14", none, none, none, none⟩)])], none⟩
        (.error "network unreachable") (.error "no manifest file")).raised = none := by
  constructor
  · rfl
  · rfl

/-- C4 amended: on any failed fetch (download outcome arbitrary, read of
the new document failing) the previous snapshot is retained unchanged and
the repository is never left without it, but the failure is only logged:
no exception, ManifestFetchError or otherwise, reaches the caller. -/
theorem fetch_failure_retains_snapshot (data : ManifestData) (dl : Except String Unit)
    (e : String) :
    (update_fetch data dl (.error e)).data = data
    ∧ (update_fetch data dl (.error e)).raised = none
    ∧ (update_fetch data dl (.error e)).logged ≠ []
    ∧ (load_local data (.error e)).data = data
    ∧ (load_local data (.error e)).raised = none := by
  cases dl <;> simp [update_fetch, download_step, load_local]

theorem urun_last_mem {latest : String} {s : CompState} {l : List CompState}
    {u : CompState} (h : URun latest s l u) : u = s ∨ u ∈ l := by
  induction h with
  | nil => exact Or.inl rfl
  | snoc _ _ _ => exact Or.inr (List.mem_append_right _ (List.mem_cons_self _ _))

theorem urun_invariant (latest v : String) (hv : v ≠ latest) :
    ∀ l u, URun latest ⟨.idle, v⟩ l u →
      (u.installed = v ∧ u.phase ≠ .upToDate
        ∧ ((u.phase = .restarting ∨ u.phase = .verifying) →
            ∃ x ∈ l, x.phase = Phase.applying))
      ∨ ((∃ x ∈ l, x.phase = Phase.applying) ∧ (∃ x ∈ l, x.phase = Phase.verifying)
          ∧ u.installed = latest) := by
  intro l u hrun
  induction hrun with
  | nil =>
    refine Or.inl ⟨rfl, fun h => Phase.noConfusion h, ?_⟩
    rintro (hc | hc) <;> exact Phase.noConfusion hc
  | snoc hrun2 step ih =>
    rename_i l2 t u2
    rcases ih with ⟨hinst, hnup, happ⟩ | ⟨h1, h2, h3⟩
    · have hmem_t : t = (⟨.idle, v⟩ : CompState) ∨ t ∈ l2 := urun_last_mem hrun2
      cases step with
      | startCheck w =>
        refine Or.inl ⟨hinst, fun h => Phase.noConfusion h, ?_⟩
        rintro (hc | hc) <;> exact Phase.noConfusion hc
      | checkCurrent w hw =>
        exact absurd ((Eq.symm hinst).trans hw) hv
      | checkStale w hw =>
        refine Or.inl ⟨hinst, fun h => Phase.noConfusion h, ?_⟩
        rintro (hc | hc) <;> exact Phase.noConfusion hc
      | confirm w =>
        refine Or.inl ⟨hinst, fun h => Phase.noConfusion h, ?_⟩
        rintro (hc | hc) <;> exact Phase.noConfusion hc
      | applyOk w =>
        refine Or.inl ⟨hinst, fun h => Phase.noConfusion h, ?_⟩
        intro _
        rcases hmem_t with heq | hm
        · exact Phase.noConfusion (congrArg CompState.phase heq)
        · exact ⟨⟨.applying, w⟩, List.mem_append_left _ hm, rfl⟩
      | applyFail w =>
        refine Or.inl ⟨hinst, fun h => Phase.noConfusion h, ?_⟩
        rintro (hc | hc) <;> exact Phase.noConfusion hc
      | restartDone w =>
        refine Or.inl ⟨hinst, fun h => Phase.noConfusion h, ?_⟩
        intro _
        obtain ⟨x, hx, hp⟩ := happ (Or.inl rfl)
        exact ⟨x, List.mem_append_left _ hx, hp⟩
      | verifyOk w =>
        obtain ⟨x, hx, hp⟩ := happ (Or.inr rfl)
        refine Or.inr ⟨⟨x, List.mem_append_left _ hx, hp⟩, ?_, rfl⟩
        rcases hmem_t with heq | hm
        · exact Phase.noConfusion (congrArg CompState.phase heq)
        · exact ⟨⟨.verifying, w⟩, List.mem_append_left _ hm, rfl⟩
      | verifyFail w =>
        refine Or.inl ⟨hinst, fun h => Phase.noConfusion h, ?_⟩
        rintro (hc | hc) <;> exact Phase.noConfusion hc
      | cycleEndOk w =>
        exact absurd rfl hnup
      | cycleEndFail w =>
        refine Or.inl ⟨hinst, fun h => Phase.noConfusion h, ?_⟩
        rintro (hc | hc) <;> exact Phase.noConfusion hc
    · obtain ⟨x1, hx1, hp1⟩ := h1
      obtain ⟨x2, hx2, hp2⟩ := h2
      refine Or.inr ⟨⟨x1, List.mem_append_left _ hx1, hp1⟩,
        ⟨x2, List.mem_append_left _ hx2, hp2⟩, ?_⟩
      cases step <;> first | exact h3 | rfl

/-- C3 counterexample: the specified state machine itself allows a run
Idle to CheckingUpdate to UpToDate within one cycle when the installed
version already equals the manifest's latest, reaching UpToDate without
ever visiting Applying; the claim as stated, quantified over every
component, is therefore false. -/
theorem upToDate_without_applying :
    URun "1.0.0" ⟨.idle, "1.0.0"⟩
      [⟨.checking, "1.0.0"⟩, ⟨.upToDate, "1.0.0"⟩] ⟨.upToDate, "1.0.0"⟩
    ∧ (∀ x ∈ ([⟨.checking, "1.0.0"⟩, ⟨.upToDate, "1.0.0"⟩] : List CompState),
        x.phase ≠ Phase.idle)
    ∧ (CompState.mk .upToDate "1.0.0").phase = Phase.upToDate
    ∧ ¬ ∃ x ∈ ([⟨.checking, "1.0.0"⟩, ⟨.upToDate, "1.0.0"⟩] : List CompState),
        x.phase = Phase.applying :=
  ⟨URun.snoc (URun.snoc URun.nil (UStep.startCheck _)) (UStep.checkCurrent _ rfl),
    by decide, rfl, by decide⟩

/-- C3 amended: a component whose installed version differs from the
manifest-resolved latest (an update actually pending) never reaches
UpToDate within a cycle without visiting Applying and Verifying, and its
recorded version on arrival is the verified latest; the Verifying visit
followed by UpToDate is exactly the successful readiness probe, the only
transition out of Verifying into UpToDate.  Components already at the
latest version may go CheckingUpdate to UpToDate directly. -/
theorem no_status_forgery (latest v : String) (l : List CompState) (u : CompState)
    (hrun : URun latest ⟨.idle, v⟩ l u)
    (hcycle : ∀ x ∈ l, x.phase ≠ Phase.idle)
    (hup : u.phase = .upToDate) (hv : v ≠ latest) :
    (∃ x ∈ l, x.phase = Phase.applying) ∧ (∃ x ∈ l, x.phase = Phase.verifying)
      ∧ u.installed = latest := by
  rcases urun_invariant latest v hv l u hrun with ⟨_, hnup, _⟩ | h
  · exact absurd hup hnup
  · exact h

/-- Witness for no_status_forgery on a complete successful update cycle. -/
theorem no_status_forgery_witness :
    (∃ x ∈ ([⟨.checking, "0.0.1"⟩, ⟨.updateAvailable, "0.0.1"⟩, ⟨.applying, "0.0.1"⟩,
        ⟨.restarting, "0.0.1"⟩, ⟨.verifying, "0.0.1"⟩, ⟨.upToDate, "0.0.2"⟩]
        : List CompState), x.phase = Phase.applying)
    ∧ (∃ x ∈ ([⟨.checking, "0.0.1"⟩, ⟨.updateAvailable, "0.0.1"⟩, ⟨.applying, "0.0.1"⟩,
        ⟨.restarting, "0.0.1"⟩, ⟨.verifying, "0.0.1"⟩, ⟨.upToDate, "0.0.2"⟩]
        : List CompState), x.phase = Phase.verifying)
    ∧ (CompState.mk .upToDate "0.0.2").installed = "0.0.2" :=
  no_status_forgery "0.0.2" "0.0.1"
    [⟨.checking, "0.0.1"⟩, ⟨.updateAvailable, "0.0.1"⟩, ⟨.applying, "0.0.1"⟩,
    ⟨.restarting, "0.0.1"⟩, ⟨.verifying, "0.0.1"⟩, ⟨.upToDate, "0.0.2"⟩]
    ⟨.upToDate, "0.0.2"⟩
    (URun.snoc (URun.snoc (URun.snoc (URun.snoc (URun.snoc (URun.snoc URun.nil
      (UStep.startCheck _)) (UStep.checkStale _ (by decide))) (UStep.confirm _))
      (UStep.applyOk _)) (UStep.restartDone _)) (UStep.verifyOk _))
    (by decide) rfl (by decide)

end MoondreamStation
